import Mathlib

deriving instance DecidableEq for Except

/-!
Verification of the mpdspg label-resolution and playlist-generation engine.

Paths relative to the music root are modelled as lists of segments
(`List String`).  Track identifiers are natural numbers.  The label
scanner (`label.py`), the accessor layer and diff engine (`main.py`),
and the line-edit helpers (`label_cmd.py`) are embedded as executable
Lean functions; fallible operations return `Except` / `Option`.
-/

namespace Mpdspg

/-! ### Definitions: path ordering -/

/-- Generic strict lexicographic comparison of sequences, element-by-element:
Python's comparison of tuples and of strings. -/
def lexLtB {α : Type} [DecidableEq α] (lt : α → α → Bool) : List α → List α → Bool
  | [], [] => false
  | [], _ :: _ => true
  | _ :: _, [] => false
  | a :: as, b :: bs => if lt a b then true else if a = b then lexLtB lt as bs else false

/-- Strict comparison of characters by Unicode scalar value. -/
def charLtB (a b : Char) : Bool := decide (a < b)

/-- Python string comparison: lexicographic in the characters. -/
def strLtB (a b : String) : Bool := lexLtB charLtB a.data b.data

/-- Strict lexicographic segment-by-segment comparison of relative paths,
mirroring pathlib tuple-of-parts comparison used by `LabelFile.__lt__`. -/
def pathLtB (p q : List String) : Bool := lexLtB strLtB p q

/-- Reflexive closure of `pathLtB`: "orders no later than". -/
def pathLeB (p q : List String) : Bool := pathLtB p q || p == q

/-! ### Definitions: override files and the label scanner (`label.py`) -/

/-- The two override-file default policies (`LabelFileType` in `label.py`). -/
inductive LabelFileType
  | allExcept
  | noneExcept
deriving DecidableEq

/-- One override file: the directory holding it (relative to the music root),
the label name, the default policy encoded in its filename, and its content
lines exactly as Python file iteration yields them (each keeping its `'\n'`
terminator when the on-disk text has one).  (`LabelFile` plus the file's text
in `label.py`; `_lookup` right-strips each line before use.) -/
structure OverrideFile where
  dir : List String
  label : String
  ftype : LabelFileType
  lines : List String
deriving DecidableEq

/-- Filename suffix for each policy (`_LABEL_FILE_TYPE_BY_SUFFIX`). -/
def suffixOf : LabelFileType → String
  | .allExcept => ".label-all-except"
  | .noneExcept => ".label-none-except"

/-- The override file's filename, `.<label><suffix>` (`LabelFilenamePair`). -/
def fileName (f : OverrideFile) : String := "." ++ f.label ++ suffixOf f.ftype

/-- The override file's full path relative to the music root. -/
def filePath (f : OverrideFile) : List String := f.dir ++ [fileName f]

/-- Comparison of override files by path (`LabelFile.__lt__`, used by `sort`). -/
def fileLe (f g : OverrideFile) : Prop := pathLeB (filePath f) (filePath g) = true

instance : DecidableRel fileLe := fun f g => by unfold fileLe; infer_instance

/-- A track universe: relative path of each track paired with its TrackId. -/
abbrev Tracks := List (List String × ℕ)

/-- Whether `p` is a key of the scanner's `_songs_by_path` map: the map records
every track under its own path and under every ancestor directory, so the keys
are exactly the prefixes of track paths. -/
def keyPresentB (tracks : Tracks) (p : List String) : Bool :=
  tracks.any fun t => p.isPrefixOf t.1

/-- Whether `p` is in `_song_dirs`: the proper ancestors of track paths. -/
def songDirsB (tracks : Tracks) (p : List String) : Bool :=
  tracks.any fun t => p.isPrefixOf t.1 && !(p == t.1)

/-- The directory-closure value stored under key `p` in `_songs_by_path`:
the ids of all tracks lying at or anywhere beneath `p`. -/
def closureList (tracks : Tracks) (p : List String) : Finset ℕ :=
  (tracks.filter fun t => p.isPrefixOf t.1).foldr (fun t acc => insert t.2 acc) ∅

/-- Lookup in `_songs_by_path`: a present key yields its closure; a missing key
yields the empty set when `allow_missing` was requested
(`DictWithEmptySetIfMissing`) and fails (`KeyError`) otherwise. -/
def lookupSongs (tracks : Tracks) (am : Bool) (p : List String) : Option (Finset ℕ) :=
  if keyPresentB tracks p then some (closureList tracks p)
  else if am then some ∅ else none

/-- Python whitespace characters stripped by `str.rstrip()`. -/
def pySpace (c : Char) : Bool :=
  c == ' ' || c == '\t' || c == '\n' || c == '\r' || c == '\x0b' || c == '\x0c'

/-- `str.rstrip()`: drop trailing whitespace. -/
def rstrip (s : String) : String := ⟨(s.data.reverse.dropWhile pySpace).reverse⟩

/-- The default-set operation of each policy applied to the accumulated result
(`_UPDATE_DEFAULT_EXCEPTION_BY_LABEL_FILE_TYPE`, first component):
ALL_EXCEPT does `update`, NONE_EXCEPT does `difference_update`. -/
def applyDefault : LabelFileType → Finset ℕ → Finset ℕ → Finset ℕ
  | .allExcept, acc, s => acc ∪ s
  | .noneExcept, acc, s => acc \ s

/-- The exception-line operation of each policy (second component):
ALL_EXCEPT does `difference_update`, NONE_EXCEPT does `update`. -/
def applyException : LabelFileType → Finset ℕ → Finset ℕ → Finset ℕ
  | .allExcept, acc, s => acc \ s
  | .noneExcept, acc, s => acc ∪ s

/-- The uncaught exceptions `_lookup` can raise while processing files:
a `KeyError` from a `_songs_by_path` lookup, or the `AssertionError` from
`assert '/' not in line`. -/
inductive ScanError
  | keyErr
  | assertErr
deriving DecidableEq

/-- Processing of one content line of an override file in `_lookup`:
strip trailing whitespace, skip if blank, fail fast (`AssertionError`) if the
line contains a path separator, otherwise look up the named direct entry's
closure and apply the exception operation.  A failing lookup is the
propagated `KeyError`. -/
def applyLine (tracks : Tracks) (am : Bool) (dir : List String) (t : LabelFileType)
    (acc : Finset ℕ) (line : String) : Except ScanError (Finset ℕ) :=
  let l := rstrip line
  if l = "" then .ok acc
  else if l.data.contains '/' then .error .assertErr
  else
    match lookupSongs tracks am (dir ++ [l]) with
    | none => .error .keyErr
    | some s => .ok (applyException t acc s)

/-- Left-to-right processing of an override file's lines, aborting on error. -/
def foldLines (tracks : Tracks) (am : Bool) (dir : List String) (t : LabelFileType) :
    List String → Finset ℕ → Except ScanError (Finset ℕ)
  | [], acc => .ok acc
  | line :: rest, acc =>
    match applyLine tracks am dir t acc line with
    | .ok acc' => foldLines tracks am dir t rest acc'
    | .error e => .error e

/-- Processing of one override file in `_lookup`'s per-file loop: skip the file
entirely if its directory is not a known song directory, otherwise apply the
default with the directory's closure and then each content line. -/
def applyFile (tracks : Tracks) (am : Bool) (acc : Finset ℕ) (f : OverrideFile) :
    Except ScanError (Finset ℕ) :=
  if songDirsB tracks f.dir then
    match lookupSongs tracks am f.dir with
    | none => .error .keyErr
    | some dflt => foldLines tracks am f.dir f.ftype f.lines (applyDefault f.ftype acc dflt)
  else .ok acc

/-- Left-to-right processing of the sorted override files, aborting on error. -/
def foldFiles (tracks : Tracks) (am : Bool) :
    List OverrideFile → Finset ℕ → Except ScanError (Finset ℕ)
  | [], acc => .ok acc
  | f :: rest, acc =>
    match applyFile tracks am acc f with
    | .ok acc' => foldFiles tracks am rest acc'
    | .error e => .error e

/-- The override files matched by `rglob` for label name `n`: those whose
filename is `.<n>.label-all-except` or `.<n>.label-none-except`. -/
def matchingFiles (fs : List OverrideFile) (n : String) : List OverrideFile :=
  fs.filter fun f => f.label == n

/-- `label_files.sort()`: stable sort of the matched files by path. -/
def sortFiles (fs : List OverrideFile) : List OverrideFile :=
  List.insertionSort fileLe fs

/-- `LabelScanner._lookup` restricted to one requested label name `n`, over a
filesystem `fs` of override files: the matched files are sorted by path and
folded over the empty set.  `.ok none` means no file registered the label;
`.error` is a propagated `KeyError` from an exception-line lookup. -/
def resolveLabel (tracks : Tracks) (am : Bool) (fs : List OverrideFile) (n : String) :
    Except ScanError (Option (Finset ℕ)) :=
  let files := sortFiles (matchingFiles fs n)
  if files.isEmpty then .ok none
  else
    match foldFiles tracks am files ∅ with
    | .ok s => .ok (some s)
    | .error e => .error e

/-- Outcome of `LabelScanner.get_songs_with_label`. -/
inductive LabelResult
  | songs (s : Finset ℕ)
  | nonExisting
  | keyError
  | assertError
deriving DecidableEq

/-- `get_songs_with_label`: a missing result entry becomes
`NonExistingLabelError`; a `KeyError` or `AssertionError` raised inside
`_lookup` propagates raw. -/
def getSongsWithLabel (tracks : Tracks) (am : Bool) (fs : List OverrideFile)
    (n : String) : LabelResult :=
  match resolveLabel tracks am fs n with
  | .error .keyErr => .keyError
  | .error .assertErr => .assertError
  | .ok none => .nonExisting
  | .ok (some s) => .songs s

/-! ### Definitions: accessor layer and generation/diff engine (`main.py`) -/

/-- A value registered for a playlist by the script: an ordered sequence of
TrackIds, or an unordered set (`set`/`frozenset`) of TrackIds. -/
inductive PValue
  | ordered (l : List ℕ)
  | unordered (s : Finset ℕ)
deriving DecidableEq

/-- Association-list lookup, modelling Python dict access. -/
def lookupAssoc {β : Type} : List (String × β) → String → Option β
  | [], _ => none
  | (k', v) :: rest, k => if k' = k then some v else lookupAssoc rest k

/-- Association-list update with Python dict semantics: an existing key keeps
its position and gets the new value; a new key is appended. -/
def updateAssoc {β : Type} : List (String × β) → String → β → List (String × β)
  | [], k, v => [(k, v)]
  | (k', v') :: rest, k, v =>
    if k' = k then (k, v) :: rest else (k', v') :: updateAssoc rest k v

/-- The mutable state of one `PlaylistAccessor` within a script run:
the frozen keys, the lookup cache, and the collected desired playlists
(`generated_playlists`, insertion-ordered). -/
structure AccState where
  frozen : List String
  cache : List (String × PValue)
  generated : List (String × PValue)
deriving DecidableEq

/-- The initial accessor state of a `generate_all` cycle. -/
def initState : AccState := ⟨[], [], []⟩

/-- `PlaylistAccessor.__getitem__`: a cache hit returns the cached value; a
miss fetches the remote listing (`none` models the not-found
`mpd.CommandError`), maps its paths through `map_path_to_idx` dropping unmapped
ones, and caches the resulting tuple; in every case (the `finally` clause) the
key is frozen.  The returned `Option` is `none` when the read raised
not-found. -/
def getStep (remote : String → Option (List String)) (p2i : String → Option ℕ)
    (k : String) (s : AccState) : Option PValue × AccState :=
  match lookupAssoc s.cache k with
  | some v => (some v, { s with frozen := s.frozen.insert k })
  | none =>
    match remote k with
    | some raw =>
      let v := PValue.ordered (raw.filterMap p2i)
      (some v, { frozen := s.frozen.insert k,
                 cache := updateAssoc s.cache k v,
                 generated := s.generated })
    | none => (none, { s with frozen := s.frozen.insert k })

/-- `PlaylistAccessor.__setitem__`: fails (`KeyError`) when the key has been
frozen by an earlier read; otherwise records the value in both
`generated_playlists` and the cache. -/
def setStep (k : String) (v : PValue) (s : AccState) : Except Unit AccState :=
  if k ∈ s.frozen then .error ()
  else .ok { s with cache := updateAssoc s.cache k v,
                    generated := updateAssoc s.generated k v }

/-- One playlist operation performed by the user's script. -/
inductive Op
  | read (k : String)
  | write (k : String) (v : PValue)
deriving DecidableEq

/-- A script run as a sequence of playlist reads and writes.  A failed write
(freeze violation) aborts the run; a failed read surfaces a recoverable
not-found miss, so the run continues. -/
def runOps (remote : String → Option (List String)) (p2i : String → Option ℕ) :
    List Op → AccState → Except Unit AccState
  | [], s => .ok s
  | .read k :: rest, s => runOps remote p2i rest (getStep remote p2i k s).2
  | .write k v :: rest, s =>
    match setStep k v s with
    | .ok s' => runOps remote p2i rest s'
    | .error e => .error e

/-- Rendering of a relative path as the string sent to the remote player. -/
def pathStr (p : List String) : String := String.intercalate "/" p

/-- Canonicalization of a collected playlist value in `generate_all`:
`sorted(track_idxs)` for a `set`/`frozenset`, the sequence itself otherwise. -/
def canonIdxs : PValue → List ℕ
  | .ordered l => l
  | .unordered s => s.sort (· ≤ ·)

/-- The track-name sequence sent for a collected playlist value:
`str(all_track_paths[i])` for each canonical index. -/
def canonNames (paths : List (List String)) (v : PValue) : List String :=
  (canonIdxs v).map fun i => pathStr (paths.getD i [])

/-- A mutating call issued to the remote player for a playlist. -/
inductive MpdCall
  | save (name : String)
  | clear (name : String)
  | add (name : String) (track : String)
deriving DecidableEq

/-- The diff engine's per-playlist behaviour in `generate_all`: `remote` is
the freshly fetched `listplaylist` result (`none` when the playlist is
absent), `desired` the canonical track-name sequence.  Returns the mutating
calls issued, in order. -/
def diffPlaylist (name : String) (remote : Option (List String))
    (desired : List String) : List MpdCall :=
  let old := remote.getD []
  if !remote.isSome && desired.isEmpty then [.save name, .clear name]
  else if desired ≠ old then
    (if remote.isSome then [.clear name] else []) ++ desired.map (.add name)
  else []

/-- The diff-engine work done for one collected playlist name: look up its
collected value and diff its canonical track names against the fresh remote
listing.  The remote listing is fetched directly (`m.listplaylist`), never
taken from the accessor cache. -/
def emitFor (remote : String → Option (List String)) (paths : List (List String))
    (gen : List (String × PValue)) (k : String) : List MpdCall :=
  match lookupAssoc gen k with
  | some v => diffPlaylist k (remote k) (canonNames paths v)
  | none => []

/-! ### Definitions: override-file line edits (`label_cmd.py`) -/

/-- `add_line_to_file`'s newline normalization: append `"\n"` unless the
argument already ends with one. -/
def ensureNL (x : String) : String :=
  if x.data.getLast? = some '\n' then x else x ++ "\n"

/-- Python file-line iteration (`for line in f` / `readlines()`) over a raw
character stream: lines keep their `'\n'` terminator; a final fragment
without a terminator is still a line; empty text has no lines.  The
accumulator holds the current line reversed. -/
def readlinesAux : List Char → List Char → List String
  | [], [] => []
  | [], acc => [⟨acc.reverse⟩]
  | c :: rest, acc =>
    if c = '\n' then ⟨(c :: acc).reverse⟩ :: readlinesAux rest []
    else readlinesAux rest (c :: acc)

/-- The lines of a raw file text, as Python yields them. -/
def readlines (text : List Char) : List String := readlinesAux text []

/-- `add_line_to_file`: append the argument's text (newline-terminated) to
the raw file contents.  When the existing text does not end with a newline,
the appended name runs on from the file's last line. -/
def addText (text : List Char) (x : String) : List Char :=
  text ++ (ensureNL x).data

/-- `remove_line_from_file`: read the file's lines, drop every line whose
right-stripped text equals the right-stripped argument, and write back their
concatenation; the `assert` that exactly one line was removed fails
otherwise (`none`), in which case the file is not rewritten. -/
def removeLineText (text : List Char) (x : String) : Option (List Char) :=
  let t := rstrip x
  let all := readlines text
  let kept := all.filter fun l => !(rstrip l == t)
  if kept.length + 1 = all.length then some ((kept.map String.data).flatten) else none

/-- The on-disk file text after `add_line_to_file` followed by
`remove_line_from_file` with the same argument: when the remove's `assert`
fails, the file keeps its post-add contents. -/
def roundTripText (text : List Char) (x : String) : List Char :=
  match removeLineText (addText text x) x with
  | some t₂ => t₂
  | none => addText text x

/-! ### Definitions: concrete scenarios used by specific claims -/

/-- Track universe of the nearest-rule-wins scenario: ids are positions in the
sorted list of the four track paths. -/
def tracksC1 : Tracks :=
  [(["rock", "ballad.mp3"], 0), (["rock", "fast.mp3"], 1),
   (["rock", "slow", "slow1.mp3"], 2), (["rock", "slow", "slow2.mp3"], 3)]

/-- Override files of the nearest-rule-wins scenario: `rock` holds an
ALL_EXCEPT file for label `L` with no exception lines, `rock/slow` holds a
NONE_EXCEPT file for `L` listing `slow1.mp3`. -/
def fsC1 : List OverrideFile :=
  [⟨["rock"], "L", .allExcept, []⟩,
   ⟨["rock", "slow"], "L", .noneExcept, ["slow1.mp3"]⟩]

/-- A one-track universe used to exhibit a failing exception-line lookup. -/
def tracksC4 : Tracks := [(["rock", "a.mp3"], 0)]

/-- A single in-scope ALL_EXCEPT file for label `L` whose exception line
names an entry outside the track universe. -/
def fsC4 : List OverrideFile := [⟨["rock"], "L", .allExcept, ["b.mp3"]⟩]

/-- An override file for label `L` directly in directory `rock`. -/
def ancFileC5 : OverrideFile := ⟨["rock"], "L", .allExcept, []⟩

/-- An override file for label `L` in the descendant directory `rock/!fast`,
whose name starts with a character that orders before `"."`. -/
def descFileC5 : OverrideFile := ⟨["rock", "!fast"], "L", .allExcept, []⟩

/-! ### Theorems: the path order -/

theorem lexLtB_cons {α : Type} [DecidableEq α] (lt : α → α → Bool)
    {a b : α} {as bs : List α} :
    lexLtB lt (a :: as) (b :: bs) = true ↔
      lt a b = true ∨ (a = b ∧ lexLtB lt as bs = true) := by
  by_cases h : lt a b = true <;> by_cases h' : a = b <;> simp [lexLtB, h, h']

theorem lexLtB_irrefl {α : Type} [DecidableEq α] (lt : α → α → Bool)
    (hirr : ∀ a, lt a a = false) : ∀ p : List α, lexLtB lt p p = false
  | [] => rfl
  | a :: as => by simp [lexLtB, hirr a, lexLtB_irrefl lt hirr as]

theorem lexLtB_trans {α : Type} [DecidableEq α] (lt : α → α → Bool)
    (htrans : ∀ {a b c}, lt a b = true → lt b c = true → lt a c = true) :
    ∀ {p q s : List α},
      lexLtB lt p q = true → lexLtB lt q s = true → lexLtB lt p s = true
  | [], [], _, h, _ => by cases h
  | [], _ :: _, [], _, h => by cases h
  | [], _ :: _, _ :: _, _, _ => rfl
  | _ :: _, [], _, h, _ => by cases h
  | _ :: _, _ :: _, [], _, h => by cases h
  | a :: as, b :: bs, c :: cs, h₁, h₂ => by
    rcases (lexLtB_cons lt).mp h₁ with hab | ⟨hab, h₁'⟩ <;>
      rcases (lexLtB_cons lt).mp h₂ with hbc | ⟨hbc, h₂'⟩
    · exact (lexLtB_cons lt).mpr (Or.inl (htrans hab hbc))
    · exact (lexLtB_cons lt).mpr (Or.inl (hbc ▸ hab))
    · exact (lexLtB_cons lt).mpr (Or.inl (hab ▸ hbc))
    · exact (lexLtB_cons lt).mpr (Or.inr ⟨hab.trans hbc, lexLtB_trans lt htrans h₁' h₂'⟩)

theorem lexLtB_total {α : Type} [DecidableEq α] (lt : α → α → Bool)
    (htri : ∀ a b, lt a b = true ∨ a = b ∨ lt b a = true) :
    ∀ p q : List α, lexLtB lt p q = true ∨ p = q ∨ lexLtB lt q p = true
  | [], [] => Or.inr (Or.inl rfl)
  | [], _ :: _ => Or.inl rfl
  | _ :: _, [] => Or.inr (Or.inr rfl)
  | a :: as, b :: bs => by
    rcases htri a b with h | h | h
    · exact Or.inl ((lexLtB_cons lt).mpr (Or.inl h))
    · rcases lexLtB_total lt htri as bs with h' | h' | h'
      · exact Or.inl ((lexLtB_cons lt).mpr (Or.inr ⟨h, h'⟩))
      · exact Or.inr (Or.inl (by rw [h, h']))
      · exact Or.inr (Or.inr ((lexLtB_cons lt).mpr (Or.inr ⟨h.symm, h'⟩)))
    · exact Or.inr (Or.inr ((lexLtB_cons lt).mpr (Or.inl h)))

theorem charLtB_irrefl (a : Char) : charLtB a a = false := by
  simp [charLtB, lt_irrefl]

theorem charLtB_trans {a b c : Char}
    (h₁ : charLtB a b = true) (h₂ : charLtB b c = true) : charLtB a c = true := by
  simp only [charLtB, decide_eq_true_eq] at *
  exact lt_trans h₁ h₂

theorem charLtB_total (a b : Char) :
    charLtB a b = true ∨ a = b ∨ charLtB b a = true := by
  simp only [charLtB, decide_eq_true_eq]
  exact lt_trichotomy a b

theorem strData_inj {a b : String} (h : a.data = b.data) : a = b :=
  congrArg String.mk h

theorem strLtB_irrefl (a : String) : strLtB a a = false :=
  lexLtB_irrefl charLtB charLtB_irrefl a.data

theorem strLtB_trans {a b c : String}
    (h₁ : strLtB a b = true) (h₂ : strLtB b c = true) : strLtB a c = true :=
  lexLtB_trans charLtB (fun h h' => charLtB_trans h h') h₁ h₂

theorem strLtB_total (a b : String) :
    strLtB a b = true ∨ a = b ∨ strLtB b a = true := by
  rcases lexLtB_total charLtB charLtB_total a.data b.data with h | h | h
  · exact Or.inl h
  · exact Or.inr (Or.inl (strData_inj h))
  · exact Or.inr (Or.inr h)

theorem pathLtB_cons {a b : String} {as bs : List String} :
    pathLtB (a :: as) (b :: bs) = true ↔
      strLtB a b = true ∨ (a = b ∧ pathLtB as bs = true) :=
  lexLtB_cons strLtB

theorem pathLtB_irrefl (p : List String) : pathLtB p p = false :=
  lexLtB_irrefl strLtB strLtB_irrefl p

theorem pathLtB_trans {p q s : List String}
    (h₁ : pathLtB p q = true) (h₂ : pathLtB q s = true) : pathLtB p s = true :=
  lexLtB_trans strLtB (fun h h' => strLtB_trans h h') h₁ h₂

theorem pathLtB_total (p q : List String) :
    pathLtB p q = true ∨ p = q ∨ pathLtB q p = true :=
  lexLtB_total strLtB strLtB_total p q

theorem pathLeB_iff {p q : List String} :
    pathLeB p q = true ↔ pathLtB p q = true ∨ p = q := by
  simp [pathLeB, Bool.or_eq_true, beq_iff_eq]

theorem pathLeB_total (p q : List String) : pathLeB p q = true ∨ pathLeB q p = true := by
  rcases pathLtB_total p q with h | h | h
  · exact Or.inl (pathLeB_iff.mpr (Or.inl h))
  · exact Or.inl (pathLeB_iff.mpr (Or.inr h))
  · exact Or.inr (pathLeB_iff.mpr (Or.inl h))

theorem pathLeB_trans {p q s : List String}
    (h₁ : pathLeB p q = true) (h₂ : pathLeB q s = true) : pathLeB p s = true := by
  rcases pathLeB_iff.mp h₁ with h₁ | rfl
  · rcases pathLeB_iff.mp h₂ with h₂ | rfl
    · exact pathLeB_iff.mpr (Or.inl (pathLtB_trans h₁ h₂))
    · exact pathLeB_iff.mpr (Or.inl h₁)
  · exact h₂

theorem pathLtB_asymm {p q : List String}
    (h : pathLtB p q = true) : pathLtB q p = false := by
  by_contra hc
  have h' : pathLtB q p = true := by
    cases hq : pathLtB q p
    · exact absurd hq hc
    · rfl
  have := pathLtB_trans h h'
  rw [pathLtB_irrefl] at this
  cases this

theorem pathLeB_antisymm {p q : List String}
    (h₁ : pathLeB p q = true) (h₂ : pathLeB q p = true) : p = q := by
  rcases pathLeB_iff.mp h₁ with h₁ | rfl
  · rcases pathLeB_iff.mp h₂ with h₂ | rfl
    · rw [pathLtB_asymm h₂] at h₁; cases h₁
    · rfl
  · rfl

instance : IsTotal OverrideFile fileLe := ⟨fun _ _ => pathLeB_total _ _⟩

instance : IsTrans OverrideFile fileLe := ⟨fun _ _ _ => pathLeB_trans⟩

/-! ### Claim theorems -/

/-- C1: Nearest-rule-wins inheritance.  For the track universe
`{rock/ballad.mp3, rock/fast.mp3, rock/slow/slow1.mp3, rock/slow/slow2.mp3}`
(ids 0–3), with directory `rock` holding an ALL_EXCEPT file for label `L`
with no exception lines and `rock/slow` holding a NONE_EXCEPT file for `L`
listing `slow1.mp3`, resolving `L` yields exactly
`{rock/ballad.mp3, rock/fast.mp3, rock/slow/slow1.mp3}` (ids 0, 1, 2): the
deeper file's full reset replaces the shallower default in its subtree and
its listed exception re-adds `slow1.mp3`. -/
theorem C1_nearest_rule_wins :
    resolveLabel tracksC1 false fsC1 "L" = .ok (some {0, 1, 2}) := by decide

/-- C2: Diff engine behaviour.  For a playlist with remote state `r` and
desired canonical track-name sequence `d`: if the playlist exists remotely
with exactly contents `d`, no mutating call is issued; if it is absent and
`d` is empty, exactly a create (`save`) followed by a `clear` is issued;
otherwise a `clear` is issued only if the playlist already exists, followed
by one `add` per element of `d` in order. -/
theorem C2_diff_engine (name : String) (r : Option (List String)) (d : List String) :
    (r = some d → diffPlaylist name r d = []) ∧
    (r = none → d = [] → diffPlaylist name r d = [.save name, .clear name]) ∧
    (r ≠ some d → ¬(r = none ∧ d = []) →
      diffPlaylist name r d =
        (if r.isSome then [.clear name] else []) ++ d.map (.add name)) := by
  refine ⟨?_, ?_, ?_⟩
  · rintro rfl
    simp [diffPlaylist]
  · rintro rfl rfl
    simp [diffPlaylist]
  · intro hne habs
    cases r with
    | none =>
      have hd : d ≠ [] := fun h => habs ⟨rfl, h⟩
      simp [diffPlaylist, hd]
    | some old =>
      have hd : d ≠ old := fun h => hne (by rw [h])
      simp [diffPlaylist, hd]

/-- Witness for C2 at the spec's own examples: remote `[a, b]` with desired
`[a, b]` issues nothing; an absent playlist with empty desired contents is
created then cleared; remote `[a, b]` with desired `[b, a]` is cleared then
re-added in order. -/
theorem C2_diff_engine_witness :
    diffPlaylist "p" (some ["a", "b"]) ["a", "b"] = [] ∧
    diffPlaylist "p" none [] = [.save "p", .clear "p"] ∧
    diffPlaylist "p" (some ["a", "b"]) ["b", "a"] =
      [.clear "p", .add "p" "b", .add "p" "a"] := by
  refine ⟨(C2_diff_engine "p" (some ["a", "b"]) ["a", "b"]).1 rfl,
    (C2_diff_engine "p" none []).2.1 rfl rfl, ?_⟩
  have h := (C2_diff_engine "p" (some ["a", "b"]) ["b", "a"]).2.2
    (by decide) (by decide)
  simpa using h

theorem lookupAssoc_updateAssoc {β : Type} (g : List (String × β)) (k : String) (v : β) :
    lookupAssoc (updateAssoc g k v) k = some v := by
  induction g with
  | nil => simp [updateAssoc, lookupAssoc]
  | cons hd tl ih =>
    by_cases h : hd.1 = k
    · simp [updateAssoc, h, lookupAssoc]
    · simpa [updateAssoc, h, lookupAssoc] using ih

theorem getStep_frozen (remote : String → Option (List String))
    (p2i : String → Option ℕ) (k : String) (s : AccState) :
    ((getStep remote p2i k s).2).frozen = s.frozen.insert k := by
  cases hc : lookupAssoc s.cache k with
  | some v => simp [getStep, hc]
  | none =>
    cases hr : remote k with
    | some raw => simp [getStep, hc, hr]
    | none => simp [getStep, hc, hr]

theorem setStep_ok {k : String} {v : PValue} {s s' : AccState}
    (h : setStep k v s = .ok s') :
    k ∉ s.frozen ∧ s'.frozen = s.frozen ∧
      s'.generated = updateAssoc s.generated k v := by
  by_cases hk : k ∈ s.frozen
  · simp [setStep, hk] at h
  · simp only [setStep, hk, if_false, if_neg hk, Except.ok.injEq] at h
    subst h
    exact ⟨hk, rfl, rfl⟩

theorem runOps_frozen (remote : String → Option (List String))
    (p2i : String → Option ℕ) :
    ∀ (ops : List Op) (s s' : AccState), runOps remote p2i ops s = .ok s' →
      ∀ k, k ∈ s'.frozen → k ∈ s.frozen ∨ Op.read k ∈ ops
  | [], s, s', h, k, hk => by
    simp only [runOps, Except.ok.injEq] at h
    exact Or.inl (h ▸ hk)
  | .read k' :: rest, s, s', h, k, hk => by
    simp only [runOps] at h
    rcases runOps_frozen remote p2i rest _ s' h k hk with hmem | hmem
    · rw [getStep_frozen] at hmem
      rcases List.mem_insert_iff.mp hmem with rfl | hmem
      · exact Or.inr (List.mem_cons_self _ _)
      · exact Or.inl hmem
    · exact Or.inr (List.mem_cons_of_mem _ hmem)
  | .write k' v' :: rest, s, s', h, k, hk => by
    simp only [runOps] at h
    cases hset : setStep k' v' s with
    | ok s₁ =>
      rw [hset] at h
      rcases runOps_frozen remote p2i rest _ s' h k hk with hmem | hmem
      · rw [(setStep_ok hset).2.1] at hmem
        exact Or.inl hmem
      · exact Or.inr (List.mem_cons_of_mem _ hmem)
    | error e => rw [hset] at h; cases h

/-- C3: Freeze discipline.  Once a playlist key has been read, a subsequent
assignment to it fails; an assignment made before any read of the key
succeeds, registering the value; and the later diff for a key compares the
registered value against the freshly fetched remote listing (`remote k`),
independently of the read cache. -/
theorem C3_freeze_discipline (remote : String → Option (List String))
    (p2i : String → Option ℕ) (ops : List Op) (s : AccState) (k : String)
    (v : PValue) (paths : List (List String)) :
    (setStep k v (getStep remote p2i k s).2 = .error ()) ∧
    (runOps remote p2i ops initState = .ok s → Op.read k ∉ ops →
      ∃ s', setStep k v s = .ok s' ∧ lookupAssoc s'.generated k = some v) ∧
    (∀ w, lookupAssoc s.generated k = some w →
      emitFor remote paths s.generated k =
        diffPlaylist k (remote k) (canonNames paths w)) := by
  refine ⟨?_, ?_, ?_⟩
  · simp [setStep, getStep_frozen, List.mem_insert_self]
  · intro hrun hnr
    have hk : k ∉ s.frozen := by
      intro hmem
      rcases runOps_frozen remote p2i ops initState s hrun k hmem with hmem' | hmem'
      · simp [initState] at hmem'
      · exact hnr hmem'
    refine ⟨AccState.mk s.frozen (updateAssoc s.cache k v)
      (updateAssoc s.generated k v), ?_, ?_⟩
    · simp [setStep, hk]
    · simp [lookupAssoc_updateAssoc]
  · intro w hw
    simp [emitFor, hw]

/-- Witness for C3: after a run consisting of one write to `p` (no read),
a further write to `p` after a read fails, the original write succeeded and
registered its value, and the diff for `p` compares that value against the
fresh remote listing. -/
theorem C3_freeze_discipline_witness :
    (setStep "p" (.ordered [1]) ((getStep (fun _ => none) (fun _ => none) "p"
      (AccState.mk [] [("p", .ordered [])] [("p", .ordered [])])).2) = .error ()) ∧
    (∃ s', setStep "p" (.ordered [1])
        (AccState.mk [] [("p", .ordered [])] [("p", .ordered [])]) = .ok s' ∧
      lookupAssoc s'.generated "p" = some (.ordered [1])) ∧
    emitFor (fun _ => none) []
        (AccState.mk [] [("p", .ordered [])] [("p", .ordered [])]).generated "p" =
      diffPlaylist "p" none (canonNames [] (.ordered [])) := by
  have H := C3_freeze_discipline (fun _ => none) (fun _ => none)
    [Op.write "p" (.ordered [])]
    (AccState.mk [] [("p", .ordered [])] [("p", .ordered [])]) "p"
    (.ordered [1]) []
  exact ⟨H.1, H.2.1 rfl (by decide), H.2.2 (.ordered []) rfl⟩

/-- C10: Assigning a playlist key does not freeze it: starting from any state
where the key is unfrozen, a sequence of successive assignments to it all
succeed, the key stays unfrozen, and the collected value — hence the diff
for that key — is the last assigned value. -/
theorem C10_assignment_does_not_freeze (remote : String → Option (List String))
    (p2i : String → Option ℕ) (paths : List (List String)) (k : String)
    (v : PValue) :
    ∀ (vs : List PValue) (s : AccState), k ∉ s.frozen → vs.getLast? = some v →
      ∃ s', runOps remote p2i (vs.map (Op.write k)) s = .ok s' ∧
        k ∉ s'.frozen ∧ lookupAssoc s'.generated k = some v ∧
        emitFor remote paths s'.generated k =
          diffPlaylist k (remote k) (canonNames paths v)
  | [], _, _, hv => by cases hv
  | v₀ :: rest, s, hk, hv => by
    have hstep : setStep k v₀ s = .ok (AccState.mk s.frozen
        (updateAssoc s.cache k v₀) (updateAssoc s.generated k v₀)) := by
      simp [setStep, hk]
    cases rest with
    | nil =>
      have hv' : v₀ = v := by simpa using hv
      subst hv'
      refine ⟨AccState.mk s.frozen (updateAssoc s.cache k v₀)
        (updateAssoc s.generated k v₀), ?_, hk, lookupAssoc_updateAssoc _ _ _, ?_⟩
      · simp [runOps, hstep]
      · simp [emitFor, lookupAssoc_updateAssoc]
    | cons v₁ rest' =>
      have hv' : (v₁ :: rest').getLast? = some v := by
        simpa [List.getLast?_cons_cons] using hv
      obtain ⟨s', h1, h2, h3, h4⟩ :=
        C10_assignment_does_not_freeze remote p2i paths k v (v₁ :: rest')
          (AccState.mk s.frozen (updateAssoc s.cache k v₀)
            (updateAssoc s.generated k v₀)) hk hv'
      refine ⟨s', ?_, h2, h3, h4⟩
      simpa [runOps, hstep] using h1

/-- Witness for C10: two successive writes to the never-read key `p` both
succeed and the collected value is the second one. -/
theorem C10_assignment_does_not_freeze_witness :
    ∃ s', runOps (fun _ => none) (fun _ => none)
        ([PValue.ordered [], PValue.ordered [0]].map (Op.write "p")) initState = .ok s' ∧
      "p" ∉ s'.frozen ∧ lookupAssoc s'.generated "p" = some (PValue.ordered [0]) ∧
      emitFor (fun _ => none) [["a.mp3"]] s'.generated "p" =
        diffPlaylist "p" none (canonNames [["a.mp3"]] (PValue.ordered [0])) :=
  C10_assignment_does_not_freeze (fun _ => none) (fun _ => none) [["a.mp3"]] "p"
    (PValue.ordered [0]) [PValue.ordered [], PValue.ordered [0]] initState
    (by simp [initState]) rfl

/-- C9: A playlist read that fails with a not-found miss still freezes the
key: when the key is not cached and the remote fetch reports not-found, the
read returns the miss, and any later assignment to that key fails, even
though no contents were ever successfully observed. -/
theorem C9_failed_read_freezes (remote : String → Option (List String))
    (p2i : String → Option ℕ) (s : AccState) (k : String) (v : PValue)
    (hc : lookupAssoc s.cache k = none) (hr : remote k = none) :
    (getStep remote p2i k s).1 = none ∧
    setStep k v (getStep remote p2i k s).2 = .error () := by
  constructor
  · simp [getStep, hc, hr]
  · simp [getStep, hc, hr, setStep, List.mem_insert_self]

/-- Witness for C9: in the initial state with an empty remote, reading key
`p` misses, and a subsequent write to `p` fails. -/
theorem C9_failed_read_freezes_witness :
    (getStep (fun _ => none) (fun _ => none) "p" initState).1 = none ∧
    setStep "p" (.ordered []) ((getStep (fun _ => none) (fun _ => none) "p" initState).2) =
      .error () :=
  C9_failed_read_freezes (fun _ => none) (fun _ => none) initState "p"
    (.ordered []) rfl rfl

theorem pathLtB_append_left (p : List String) (a b : List String) :
    pathLtB (p ++ a) (p ++ b) = pathLtB a b := by
  induction p with
  | nil => rfl
  | cons x xs ih =>
    show lexLtB strLtB (x :: (xs ++ a)) (x :: (xs ++ b)) = pathLtB a b
    simp only [lexLtB, strLtB_irrefl x, if_false, if_pos rfl]
    exact ih

/-- C5 counterexample: the ancestor directory `rock` holds an override file,
and the descendant directory `rock/!fast` (whose name starts with a character
ordering before `"."`) holds one for the same label; the descendant's file
orders strictly before — and is therefore processed before — the
ancestor's, refuting ancestor-before-descendant ordering. -/
theorem C5_counterexample :
    ancFileC5.dir.isPrefixOf descFileC5.dir = true ∧
    ancFileC5.dir ≠ descFileC5.dir ∧
    pathLtB (filePath descFileC5) (filePath ancFileC5) = true ∧
    sortFiles [ancFileC5, descFileC5] = [descFileC5, ancFileC5] := by decide

/-- C5 (amended): the matched override files are ordered by path compared
lexically segment-by-segment — the sort's output is sorted under `fileLe` and
is a permutation of the matches — and for a pair of override files where one
file's directory is an ancestor of the other's, the ancestor's file orders
strictly before the descendant's exactly under the proviso that the
descendant's first extra path segment does not order lexicographically
before the ancestor's override filename `.<label>.label-…-except`. -/
theorem C5_amended_ordering (fs : List OverrideFile) (f g : OverrideFile)
    (seg : String) (rest : List String)
    (hdir : g.dir = f.dir ++ seg :: rest)
    (hseg : strLtB seg (fileName f) = false) :
    (sortFiles fs).Sorted fileLe ∧ (sortFiles fs).Perm fs ∧
    pathLtB (filePath f) (filePath g) = true := by
  refine ⟨List.sorted_insertionSort fileLe fs, List.perm_insertionSort fileLe fs, ?_⟩
  have hpath : filePath g = f.dir ++ (seg :: (rest ++ [fileName g])) := by
    simp [filePath, hdir]
  rw [filePath, hpath, pathLtB_append_left]
  rcases strLtB_total (fileName f) seg with h | h | h
  · exact (lexLtB_cons strLtB).mpr (Or.inl h)
  · refine (lexLtB_cons strLtB).mpr (Or.inr ⟨h, ?_⟩)
    cases rest <;> rfl
  · rw [h] at hseg; cases hseg

/-- Witness for C5 (amended): for the override file in `rock` and one in
`rock/slow`, the ancestor's file orders strictly first, and sorting the pair
is sorted and a permutation of it. -/
theorem C5_amended_ordering_witness :
    (sortFiles [ancFileC5, OverrideFile.mk ["rock", "slow"] "L" .noneExcept []]).Sorted
        fileLe ∧
    (sortFiles [ancFileC5, OverrideFile.mk ["rock", "slow"] "L" .noneExcept []]).Perm
        [ancFileC5, OverrideFile.mk ["rock", "slow"] "L" .noneExcept []] ∧
    pathLtB (filePath ancFileC5)
        (filePath (OverrideFile.mk ["rock", "slow"] "L" .noneExcept [])) = true :=
  C5_amended_ordering [ancFileC5, OverrideFile.mk ["rock", "slow"] "L" .noneExcept []]
    ancFileC5 (OverrideFile.mk ["rock", "slow"] "L" .noneExcept []) "slow" [] rfl
    (by decide)

/-- C7: Canonicalization.  An unordered playlist value is emitted as its
TrackIds sorted ascending; since TrackIds are positions in the strictly
path-sorted list of all track paths, the emitted sequence of underlying paths
is strictly increasing in path order.  An ordered value's id sequence is
emitted verbatim. -/
theorem C7_canonicalization (paths : List (List String)) (s : Finset ℕ) (l : List ℕ)
    (hsorted : paths.Pairwise (fun p q => pathLtB p q = true))
    (hbound : ∀ i ∈ s, i < paths.length) :
    canonIdxs (.unordered s) = s.sort (· ≤ ·) ∧
    ((canonIdxs (.unordered s)).map (fun i => paths.getD i [])).Pairwise
      (fun p q => pathLtB p q = true) ∧
    canonIdxs (.ordered l) = l := by
  refine ⟨rfl, ?_, rfl⟩
  have hs : (s.sort (· ≤ ·)).Pairwise (· < ·) := Finset.sort_sorted_lt s
  rw [show canonIdxs (.unordered s) = s.sort (· ≤ ·) from rfl, List.pairwise_map]
  refine hs.imp_of_mem ?_
  intro i j hi hj hij
  have hi' : i < paths.length := hbound i ((Finset.mem_sort _).mp hi)
  have hj' : j < paths.length := hbound j ((Finset.mem_sort _).mp hj)
  rw [List.getD_eq_getElem paths [] hi', List.getD_eq_getElem paths [] hj']
  exact List.pairwise_iff_getElem.mp hsorted i j hi' hj' hij

/-- Witness for C7: with three strictly path-sorted tracks, the unordered
value `{2, 0}` is emitted as ids `[0, 2]` whose underlying paths are strictly
increasing, and an ordered value `[2, 0]` is kept verbatim. -/
theorem C7_canonicalization_witness :
    canonIdxs (.unordered {2, 0}) = Finset.sort (· ≤ ·) {2, 0} ∧
    ((canonIdxs (.unordered {2, 0})).map
        (fun i => [["a.mp3"], ["b.mp3"], ["c", "d.mp3"]].getD i [])).Pairwise
      (fun p q => pathLtB p q = true) ∧
    canonIdxs (.ordered [2, 0]) = [2, 0] :=
  C7_canonicalization [["a.mp3"], ["b.mp3"], ["c", "d.mp3"]] {2, 0} [2, 0]
    (by decide) (by decide)

theorem sortFiles_eq_nil {fs : List OverrideFile} (h : sortFiles fs = []) : fs = [] := by
  have hp : (sortFiles fs).Perm fs := List.perm_insertionSort fileLe fs
  rw [h] at hp
  exact hp.nil_eq.symm

theorem mem_sortFiles {fs : List OverrideFile} {f : OverrideFile} :
    f ∈ sortFiles fs ↔ f ∈ fs :=
  (List.perm_insertionSort fileLe fs).mem_iff

theorem songDirsB_keyPresentB {tracks : Tracks} {p : List String}
    (h : songDirsB tracks p = true) : keyPresentB tracks p = true := by
  simp only [songDirsB, List.any_eq_true, Bool.and_eq_true] at h
  obtain ⟨t, ht, h1, _⟩ := h
  exact List.any_eq_true.mpr ⟨t, ht, h1⟩

theorem applyLine_ok (tracks : Tracks) (am : Bool) (dir : List String)
    (t : LabelFileType) (acc : Finset ℕ) (line : String)
    (h : rstrip line ≠ "" →
      (rstrip line).data.contains '/' = false ∧
        (am = true ∨ keyPresentB tracks (dir ++ [rstrip line]) = true)) :
    ∃ acc', applyLine tracks am dir t acc line = .ok acc' := by
  by_cases hb : rstrip line = ""
  · exact ⟨acc, by simp [applyLine, hb]⟩
  · obtain ⟨hsl, hor⟩ := h hb
    have hslm : '/' ∉ (rstrip line).data := by simpa using hsl
    rcases hor with ham | hkey
    · subst ham
      by_cases hk : keyPresentB tracks (dir ++ [rstrip line]) = true
      · exact ⟨applyException t acc (closureList tracks (dir ++ [rstrip line])),
          by simp [applyLine, lookupSongs, hb, hslm, hk]⟩
      · exact ⟨applyException t acc ∅,
          by simp [applyLine, lookupSongs, hb, hslm, hk]⟩
    · exact ⟨applyException t acc (closureList tracks (dir ++ [rstrip line])),
        by simp [applyLine, lookupSongs, hb, hslm, hkey]⟩

theorem foldLines_ok (tracks : Tracks) (am : Bool) (dir : List String)
    (t : LabelFileType) :
    ∀ (lines : List String) (acc : Finset ℕ),
      (∀ line ∈ lines, rstrip line ≠ "" →
        (rstrip line).data.contains '/' = false ∧
          (am = true ∨ keyPresentB tracks (dir ++ [rstrip line]) = true)) →
      ∃ acc', foldLines tracks am dir t lines acc = .ok acc'
  | [], acc, _ => ⟨acc, rfl⟩
  | line :: rest, acc, h => by
    obtain ⟨a₁, ha₁⟩ := applyLine_ok tracks am dir t acc line
      (h line (List.mem_cons_self _ _))
    obtain ⟨acc', hacc'⟩ := foldLines_ok tracks am dir t rest a₁
      (fun l hl => h l (List.mem_cons_of_mem _ hl))
    exact ⟨acc', by simp [foldLines, ha₁, hacc']⟩

theorem applyFile_ok (tracks : Tracks) (am : Bool) (acc : Finset ℕ)
    (f : OverrideFile)
    (h : songDirsB tracks f.dir = true → ∀ line ∈ f.lines, rstrip line ≠ "" →
      (rstrip line).data.contains '/' = false ∧
        (am = true ∨ keyPresentB tracks (f.dir ++ [rstrip line]) = true)) :
    ∃ acc', applyFile tracks am acc f = .ok acc' := by
  by_cases hd : songDirsB tracks f.dir = true
  · have hkey := songDirsB_keyPresentB hd
    obtain ⟨acc', hacc'⟩ := foldLines_ok tracks am f.dir f.ftype f.lines
      (applyDefault f.ftype acc (closureList tracks f.dir)) (h hd)
    exact ⟨acc', by simp [applyFile, hd, lookupSongs, hkey, hacc']⟩
  · exact ⟨acc, by simp [applyFile, hd]⟩

theorem foldFiles_ok (tracks : Tracks) (am : Bool) :
    ∀ (files : List OverrideFile) (acc : Finset ℕ),
      (∀ f ∈ files, songDirsB tracks f.dir = true → ∀ line ∈ f.lines,
        rstrip line ≠ "" →
        (rstrip line).data.contains '/' = false ∧
          (am = true ∨ keyPresentB tracks (f.dir ++ [rstrip line]) = true)) →
      ∃ s, foldFiles tracks am files acc = .ok s
  | [], acc, _ => ⟨acc, rfl⟩
  | f :: rest, acc, h => by
    obtain ⟨a₁, ha₁⟩ := applyFile_ok tracks am acc f (h f (List.mem_cons_self _ _))
    obtain ⟨s, hs⟩ := foldFiles_ok tracks am rest a₁
      (fun g hg => h g (List.mem_cons_of_mem _ hg))
    exact ⟨s, by simp [foldFiles, ha₁, hs]⟩

theorem resolveLabel_eq_ok_none_iff (tracks : Tracks) (am : Bool)
    (fs : List OverrideFile) (n : String) :
    resolveLabel tracks am fs n = .ok none ↔ matchingFiles fs n = [] := by
  by_cases hm : matchingFiles fs n = []
  · simp [resolveLabel, hm, sortFiles, List.insertionSort]
  · have hne : sortFiles (matchingFiles fs n) ≠ [] := fun h => hm (sortFiles_eq_nil h)
    obtain ⟨x, xs, hxe⟩ : ∃ x xs, sortFiles (matchingFiles fs n) = x :: xs := by
      cases hsf : sortFiles (matchingFiles fs n) with
      | nil => exact absurd hsf hne
      | cons x xs => exact ⟨x, xs, rfl⟩
    cases hf : foldFiles tracks am (x :: xs) ∅ with
    | ok s => simp [resolveLabel, hxe, hf, hm]
    | error e => simp [resolveLabel, hxe, hf, hm]

/-- C6: Out-of-scope lookups and files.  A `_songs_by_path` lookup against a
path outside the known track universe fails (`KeyError`) when allow-missing
is false and resolves to the empty set when allow-missing is true; and in
both modes an override file whose own directory is outside the known scope
contributes no membership (processing it leaves every accumulated result
unchanged) but still registers the label's existence (resolution never
reports the label as non-existing while such a file is present). -/
theorem C6_out_of_scope (tracks : Tracks) (am : Bool) (p : List String)
    (acc : Finset ℕ) (f : OverrideFile) (fs : List OverrideFile) (n : String)
    (hp : keyPresentB tracks p = false) (hf : songDirsB tracks f.dir = false)
    (hmem : f ∈ fs) (hlabel : f.label = n) :
    lookupSongs tracks false p = none ∧
    lookupSongs tracks true p = some ∅ ∧
    applyFile tracks am acc f = .ok acc ∧
    resolveLabel tracks am fs n ≠ .ok none := by
  refine ⟨by simp [lookupSongs, hp], by simp [lookupSongs, hp],
    by simp [applyFile, hf], ?_⟩
  intro hres
  have hm : matchingFiles fs n = [] :=
    (resolveLabel_eq_ok_none_iff tracks am fs n).mp hres
  have : f ∈ matchingFiles fs n :=
    List.mem_filter.mpr ⟨hmem, by simp [hlabel]⟩
  rw [hm] at this
  exact absurd this (List.not_mem_nil f)

/-- Witness for C6: over the one-track universe `rock/a.mp3`, the path `pop`
is missing (lookup fails without allow-missing, resolves empty with it), and
an override file in the out-of-scope directory `pop` is a no-op on any
accumulator yet keeps its label `M` registered. -/
theorem C6_out_of_scope_witness :
    lookupSongs tracksC4 false ["pop"] = none ∧
    lookupSongs tracksC4 true ["pop"] = some ∅ ∧
    applyFile tracksC4 false {5} (OverrideFile.mk ["pop"] "M" .allExcept []) =
      .ok {5} ∧
    resolveLabel tracksC4 false [OverrideFile.mk ["pop"] "M" .allExcept []] "M" ≠
      .ok none :=
  C6_out_of_scope tracksC4 false ["pop"] {5}
    (OverrideFile.mk ["pop"] "M" .allExcept [])
    [OverrideFile.mk ["pop"] "M" .allExcept []] "M"
    (by decide) (by decide) (List.mem_cons_self _ _) rfl

/-- C4 counterexample: over the one-track universe `rock/a.mp3`, an
ALL_EXCEPT file for label `L` in the in-scope directory `rock` has exception
line `b.mp3` naming an entry outside the universe; with allow-missing false,
`get_songs_with_label "L"` fails with a raw `KeyError` — not
`NonExistingLabelError`, and not a returned set — although an override file
for `L` exists. -/
theorem C4_counterexample :
    getSongsWithLabel tracksC4 false fsC4 "L" = .keyError ∧
    (fsC4.filter fun f => f.label == "L") ≠ [] := by decide

/-- C4 (amended): `get_songs_with_label n` fails with `NonExistingLabelError`
exactly when no override file for `n` exists anywhere; when at least one
exists — even only one whose directory lies outside the known scope — it
returns a (possibly empty) set without failing provided no non-blank
exception line of an in-scope file for `n` contains a path separator (else
the `assert` fails fast) and either allow-missing is set or every such line
names an entry inside the known universe (otherwise the failure is a raw
`KeyError`, not `NonExistingLabelError`). -/
theorem C4_amended_error_behaviour (tracks : Tracks) (am : Bool)
    (fs : List OverrideFile) (n : String) :
    (getSongsWithLabel tracks am fs n = .nonExisting ↔ matchingFiles fs n = []) ∧
    (matchingFiles fs n ≠ [] →
      (∀ f ∈ fs, f.label = n → songDirsB tracks f.dir = true →
        ∀ line ∈ f.lines, rstrip line ≠ "" →
          (rstrip line).data.contains '/' = false) →
      (am = true ∨ ∀ f ∈ fs, f.label = n → songDirsB tracks f.dir = true →
        ∀ line ∈ f.lines, rstrip line ≠ "" →
          keyPresentB tracks (f.dir ++ [rstrip line]) = true) →
      ∃ s, getSongsWithLabel tracks am fs n = .songs s) := by
  constructor
  · have hiff : getSongsWithLabel tracks am fs n = .nonExisting ↔
        resolveLabel tracks am fs n = .ok none := by
      unfold getSongsWithLabel
      cases hres : resolveLabel tracks am fs n with
      | error e => cases e <;> simp
      | ok o => cases o with
        | none => simp
        | some s => simp
    exact hiff.trans (resolveLabel_eq_ok_none_iff tracks am fs n)
  · intro hm hsl hcond
    obtain ⟨x, xs, hxe⟩ : ∃ x xs, sortFiles (matchingFiles fs n) = x :: xs := by
      cases hsf : sortFiles (matchingFiles fs n) with
      | nil => exact absurd (sortFiles_eq_nil hsf) hm
      | cons x xs => exact ⟨x, xs, rfl⟩
    have hall : ∀ f ∈ (x :: xs), songDirsB tracks f.dir = true → ∀ line ∈ f.lines,
        rstrip line ≠ "" →
        (rstrip line).data.contains '/' = false ∧
          (am = true ∨ keyPresentB tracks (f.dir ++ [rstrip line]) = true) := by
      intro f hf hd line hl hb
      have hf' : f ∈ matchingFiles fs n := mem_sortFiles.mp (hxe ▸ hf)
      have hmemfs : f ∈ fs := (List.mem_filter.mp hf').1
      have hlab : f.label = n := by
        have := (List.mem_filter.mp hf').2
        simpa using this
      refine ⟨hsl f hmemfs hlab hd line hl hb, ?_⟩
      rcases hcond with ham | hcond
      · exact Or.inl ham
      · exact Or.inr (hcond f hmemfs hlab hd line hl hb)
    obtain ⟨s, hs⟩ := foldFiles_ok tracks am (x :: xs) ∅ hall
    exact ⟨s, by simp [getSongsWithLabel, resolveLabel, hxe, hs]⟩

/-- Witness for C4 (amended): in the nearest-rule-wins scenario the label `L`
has override files whose lines are separator-free and all resolve in scope,
so resolution does not report non-existence and returns a set. -/
theorem C4_amended_error_behaviour_witness :
    (getSongsWithLabel tracksC1 false fsC1 "L" = .nonExisting ↔
      matchingFiles fsC1 "L" = []) ∧
    (∃ s, getSongsWithLabel tracksC1 false fsC1 "L" = .songs s) :=
  ⟨(C4_amended_error_behaviour tracksC1 false fsC1 "L").1,
   (C4_amended_error_behaviour tracksC1 false fsC1 "L").2 (by decide)
     (by decide) (Or.inr (by decide))⟩

theorem length_filter_lt {α : Type} {p : α → Bool} {l : List α} {a : α}
    (ha : a ∈ l) (hpa : p a = false) : (l.filter p).length < l.length := by
  induction l with
  | nil => cases ha
  | cons b bl ih =>
    rcases List.mem_cons.mp ha with rfl | ha'
    · rw [List.filter_cons, hpa]
      simp only [Bool.false_eq_true, if_false, List.length_cons]
      exact Nat.lt_succ_of_le (List.length_filter_le p bl)
    · rw [List.filter_cons]
      cases hpb : p b
      · simp only [Bool.false_eq_true, if_false, List.length_cons]
        exact Nat.lt_succ_of_lt (ih ha')
      · simp only [if_true, List.length_cons]
        exact Nat.succ_lt_succ (ih ha')

theorem ensureNL_no_newline {x : String} (hx : '\n' ∉ x.data) :
    ensureNL x = x ++ "\n" := by
  unfold ensureNL
  rw [if_neg]
  intro h
  exact hx (List.mem_of_mem_getLast? (by rw [h]; rfl))

theorem readlinesAux_append_nl :
    ∀ (text rest acc : List Char), text.getLast? = some '\n' →
      readlinesAux (text ++ rest) acc = readlinesAux text acc ++ readlinesAux rest []
  | [], _, _, h => by cases h
  | c :: text', rest, acc, h => by
    cases text' with
    | nil =>
      have hc : c = '\n' := by simpa using h
      subst hc
      show readlinesAux ('\n' :: rest) acc = _
      simp [readlinesAux]
    | cons d text'' =>
      have h' : (d :: text'').getLast? = some '\n' := by
        rw [← List.getLast?_cons_cons (a := c)]
        exact h
      show readlinesAux (c :: ((d :: text'') ++ rest)) acc = _
      by_cases hc : c = '\n'
      · subst hc
        have e1 : readlinesAux ('\n' :: ((d :: text'') ++ rest)) acc =
            ⟨('\n' :: acc).reverse⟩ :: readlinesAux ((d :: text'') ++ rest) [] := by
          rw [readlinesAux, if_pos rfl]
        have e2 : readlinesAux ('\n' :: (d :: text'')) acc =
            ⟨('\n' :: acc).reverse⟩ :: readlinesAux (d :: text'') [] := by
          rw [readlinesAux, if_pos rfl]
        rw [e1, e2, readlinesAux_append_nl (d :: text'') rest [] h', List.cons_append]
      · have e1 : readlinesAux (c :: ((d :: text'') ++ rest)) acc =
            readlinesAux ((d :: text'') ++ rest) (c :: acc) := by
          rw [readlinesAux, if_neg hc]
        have e2 : readlinesAux (c :: (d :: text'')) acc =
            readlinesAux (d :: text'') (c :: acc) := by
          rw [readlinesAux, if_neg hc]
        rw [e1, e2]
        exact readlinesAux_append_nl (d :: text'') rest (c :: acc) h'

theorem readlinesAux_single :
    ∀ (cs acc : List Char), '\n' ∉ cs →
      readlinesAux (cs ++ ['\n']) acc = [⟨acc.reverse ++ cs ++ ['\n']⟩]
  | [], acc, _ => by
    show readlinesAux ['\n'] acc = _
    simp [readlinesAux]
  | c :: cs', acc, h => by
    have hc : ¬c = '\n' := fun hh => h (hh ▸ List.mem_cons_self c cs')
    have h' : '\n' ∉ cs' := fun hh => h (List.mem_cons_of_mem _ hh)
    show readlinesAux (c :: (cs' ++ ['\n'])) acc = _
    rw [readlinesAux, if_neg hc, readlinesAux_single cs' (c :: acc) h']
    congr 3
    simp

theorem flatten_readlinesAux :
    ∀ (text acc : List Char),
      ((readlinesAux text acc).map String.data).flatten = acc.reverse ++ text
  | [], [] => rfl
  | [], a :: as => by simp [readlinesAux]
  | c :: rest, acc => by
    by_cases hc : c = '\n'
    · subst hc
      simp only [readlinesAux, if_pos, List.map_cons, List.flatten_cons]
      rw [flatten_readlinesAux rest []]
      simp
    · simp only [readlinesAux, if_neg hc]
      rw [flatten_readlinesAux rest (c :: acc)]
      simp

theorem flatten_readlines (text : List Char) :
    ((readlines text).map String.data).flatten = text := by
  unfold readlines
  rw [flatten_readlinesAux text []]
  rfl

theorem rstrip_append_nl (cs : List Char) : rstrip ⟨cs ++ ['\n']⟩ = rstrip ⟨cs⟩ := by
  have hnl : pySpace '\n' = true := rfl
  unfold rstrip
  congr 1
  rw [List.reverse_append]
  simp [List.dropWhile_cons, hnl]

theorem readlines_addText {text : List Char} {x : String}
    (hx : '\n' ∉ x.data) (htext : text = [] ∨ text.getLast? = some '\n') :
    readlines (addText text x) = readlines text ++ [⟨x.data ++ ['\n']⟩] := by
  have hdata : (ensureNL x).data = x.data ++ ['\n'] := by
    rw [ensureNL_no_newline hx]
    rfl
  unfold addText readlines
  rw [hdata]
  rcases htext with rfl | hlast
  · rw [List.nil_append, readlinesAux_single x.data [] hx]
    simp [readlinesAux]
  · rw [readlinesAux_append_nl text (x.data ++ ['\n']) [] hlast,
      readlinesAux_single x.data [] hx]
    simp

theorem foldLines_append (tracks : Tracks) (am : Bool) (dir : List String)
    (t : LabelFileType) :
    ∀ (L₁ L₂ : List String) (acc : Finset ℕ),
      foldLines tracks am dir t (L₁ ++ L₂) acc =
        match foldLines tracks am dir t L₁ acc with
        | .ok a => foldLines tracks am dir t L₂ a
        | .error e => .error e
  | [], _, _ => rfl
  | line :: rest, L₂, acc => by
    show foldLines tracks am dir t (line :: (rest ++ L₂)) acc = _
    rw [foldLines]
    cases h : applyLine tracks am dir t acc line with
    | ok a =>
      rw [foldLines, h]
      exact foldLines_append tracks am dir t rest L₂ a
    | error e => rw [foldLines, h]

theorem applyLine_subset_allExcept {tracks : Tracks} {am : Bool}
    {dir : List String} {acc a₁ : Finset ℕ} {line : String}
    (h : applyLine tracks am dir .allExcept acc line = .ok a₁) : a₁ ⊆ acc := by
  unfold applyLine at h
  by_cases hb : rstrip line = ""
  · simp only [hb, if_pos, Except.ok.injEq] at h
    exact h ▸ Finset.Subset.refl acc
  · cases hsl : (rstrip line).data.contains '/' with
    | true =>
      simp only [hb, if_neg, if_false, hsl, if_true] at h
      cases h
    | false =>
      simp only [hb, if_neg, if_false, hsl, Bool.false_eq_true] at h
      cases hs : lookupSongs tracks am (dir ++ [rstrip line]) with
      | none => rw [hs] at h; cases h
      | some s =>
        rw [hs] at h
        cases h
        exact Finset.sdiff_subset

theorem applyLine_superset_noneExcept {tracks : Tracks} {am : Bool}
    {dir : List String} {acc a₁ : Finset ℕ} {line : String}
    (h : applyLine tracks am dir .noneExcept acc line = .ok a₁) : acc ⊆ a₁ := by
  unfold applyLine at h
  by_cases hb : rstrip line = ""
  · simp only [hb, if_pos, Except.ok.injEq] at h
    exact h ▸ Finset.Subset.refl acc
  · cases hsl : (rstrip line).data.contains '/' with
    | true =>
      simp only [hb, if_neg, if_false, hsl, if_true] at h
      cases h
    | false =>
      simp only [hb, if_neg, if_false, hsl, Bool.false_eq_true] at h
      cases hs : lookupSongs tracks am (dir ++ [rstrip line]) with
      | none => rw [hs] at h; cases h
      | some s =>
        rw [hs] at h
        cases h
        exact Finset.subset_union_left

theorem foldLines_subset_allExcept {tracks : Tracks} {am : Bool}
    {dir : List String} :
    ∀ {lines : List String} {acc acc' : Finset ℕ},
      foldLines tracks am dir .allExcept lines acc = .ok acc' → acc' ⊆ acc
  | [], acc, acc', h => by
    rw [foldLines] at h
    cases h
    exact Finset.Subset.refl acc
  | line :: rest, acc, acc', h => by
    rw [foldLines] at h
    cases ha : applyLine tracks am dir .allExcept acc line with
    | error e => rw [ha] at h; cases h
    | ok a₁ =>
      rw [ha] at h
      exact (foldLines_subset_allExcept h).trans (applyLine_subset_allExcept ha)

theorem foldLines_superset_noneExcept {tracks : Tracks} {am : Bool}
    {dir : List String} :
    ∀ {lines : List String} {acc acc' : Finset ℕ},
      foldLines tracks am dir .noneExcept lines acc = .ok acc' → acc ⊆ acc'
  | [], acc, acc', h => by
    rw [foldLines] at h
    cases h
    exact Finset.Subset.refl acc
  | line :: rest, acc, acc', h => by
    rw [foldLines] at h
    cases ha : applyLine tracks am dir .noneExcept acc line with
    | error e => rw [ha] at h; cases h
    | ok a₁ =>
      rw [ha] at h
      exact (applyLine_superset_noneExcept ha).trans (foldLines_superset_noneExcept h)

theorem foldLines_line_lookup {tracks : Tracks} {am : Bool} {dir : List String}
    {t : LabelFileType} :
    ∀ {lines : List String} {acc acc' : Finset ℕ} {l : String},
      foldLines tracks am dir t lines acc = .ok acc' → l ∈ lines → rstrip l ≠ "" →
      (rstrip l).data.contains '/' = false ∧
        ∃ s, lookupSongs tracks am (dir ++ [rstrip l]) = some s
  | [], _, _, _, _, hl, _ => absurd hl (List.not_mem_nil _)
  | line :: rest, acc, acc', l, h, hl, hb => by
    rw [foldLines] at h
    cases ha : applyLine tracks am dir t acc line with
    | error e => rw [ha] at h; cases h
    | ok a₁ =>
      rw [ha] at h
      rcases List.mem_cons.mp hl with rfl | hl'
      · unfold applyLine at ha
        cases hsl : (rstrip l).data.contains '/' with
        | true =>
          simp only [hb, if_neg, if_false, hsl, if_true] at ha
          cases ha
        | false =>
          refine ⟨rfl, ?_⟩
          simp only [hb, if_neg, if_false, hsl, Bool.false_eq_true] at ha
          cases hs : lookupSongs tracks am (dir ++ [rstrip l]) with
          | none => rw [hs] at ha; cases ha
          | some s => exact ⟨s, rfl⟩
      · exact foldLines_line_lookup h hl' hb

theorem foldLines_absorb {tracks : Tracks} {am : Bool} {dir : List String}
    {t : LabelFileType} :
    ∀ {lines : List String} {acc acc' : Finset ℕ} {l : String} {s : Finset ℕ},
      foldLines tracks am dir t lines acc = .ok acc' → l ∈ lines → rstrip l ≠ "" →
      lookupSongs tracks am (dir ++ [rstrip l]) = some s →
      applyException t acc' s = acc'
  | [], _, _, _, _, _, hl, _, _ => absurd hl (List.not_mem_nil _)
  | line :: rest, acc, acc', l, s, h, hl, hb, hs => by
    rw [foldLines] at h
    cases ha : applyLine tracks am dir t acc line with
    | error e => rw [ha] at h; cases h
    | ok a₁ =>
      rw [ha] at h
      rcases List.mem_cons.mp hl with rfl | hl'
      · have ha₁ : a₁ = applyException t acc s := by
          unfold applyLine at ha
          cases hsl : (rstrip l).data.contains '/' with
          | true =>
            simp only [hb, if_neg, if_false, hsl, if_true] at ha
            cases ha
          | false =>
            simp only [hb, if_neg, if_false, hsl, Bool.false_eq_true, hs,
              Except.ok.injEq] at ha
            exact ha.symm
        cases t with
        | allExcept =>
          have hsub : acc' ⊆ acc \ s := by
            have := foldLines_subset_allExcept h
            rw [ha₁] at this
            exact this
          show acc' \ s = acc'
          apply Finset.ext
          intro a
          constructor
          · exact fun hmem => (Finset.mem_sdiff.mp hmem).1
          · intro hmem
            refine Finset.mem_sdiff.mpr ⟨hmem, fun hins => ?_⟩
            exact (Finset.mem_sdiff.mp (hsub hmem)).2 hins
        | noneExcept =>
          have hsup : acc ∪ s ⊆ acc' := by
            have := foldLines_superset_noneExcept h
            rw [ha₁] at this
            exact this
          show acc' ∪ s = acc'
          exact Finset.union_eq_left.mpr (Finset.subset_union_right.trans hsup)
      · exact foldLines_absorb h hl' hb hs

theorem foldLines_dup (tracks : Tracks) (am : Bool) (dir : List String)
    (t : LabelFileType) (L : List String) (x : String) (acc : Finset ℕ)
    (hdup : ∃ l ∈ L, rstrip l = rstrip x) :
    foldLines tracks am dir t (L ++ [x]) acc = foldLines tracks am dir t L acc := by
  rw [foldLines_append]
  cases hres : foldLines tracks am dir t L acc with
  | error e => rfl
  | ok acc' =>
    show foldLines tracks am dir t [x] acc' = .ok acc'
    by_cases hb : rstrip x = ""
    · simp [foldLines, applyLine, hb]
    · obtain ⟨l, hl, hlx⟩ := hdup
      have hlb : rstrip l ≠ "" := by rw [hlx]; exact hb
      obtain ⟨hsl, s, hs⟩ := foldLines_line_lookup hres hl hlb
      have habs := foldLines_absorb hres hl hlb hs
      have hsx : '/' ∉ (rstrip x).data := by
        rw [← hlx]
        simpa using hsl
      have hs' : lookupSongs tracks am (dir ++ [rstrip x]) = some s := by
        rw [← hlx]
        exact hs
      simp [foldLines, applyLine, hb, hsx, hs', habs]

theorem applyFile_dup (tracks : Tracks) (am : Bool) (f : OverrideFile) (x : String)
    (hdup : ∃ l ∈ f.lines, rstrip l = rstrip x) (acc : Finset ℕ) :
    applyFile tracks am acc (OverrideFile.mk f.dir f.label f.ftype (f.lines ++ [x])) =
      applyFile tracks am acc f := by
  unfold applyFile
  by_cases hd : songDirsB tracks f.dir = true
  · simp only [hd, if_true]
    cases hls : lookupSongs tracks am f.dir with
    | none => rfl
    | some dflt =>
      exact foldLines_dup tracks am f.dir f.ftype f.lines x
        (applyDefault f.ftype acc dflt) hdup
  · simp only [Bool.not_eq_true] at hd
    simp only [hd, Bool.false_eq_true, if_false]

theorem orderedInsert_map_keyEq (g : OverrideFile → OverrideFile)
    (hg : ∀ y, filePath (g y) = filePath y) (a : OverrideFile) :
    ∀ l : List OverrideFile,
      List.orderedInsert fileLe (g a) (l.map g) = (List.orderedInsert fileLe a l).map g
  | [] => rfl
  | b :: bl => by
    by_cases h : fileLe a b
    · have h' : fileLe (g a) (g b) := by
        unfold fileLe at *
        rw [hg a, hg b]
        exact h
      simp [List.orderedInsert, h, h']
    · have h' : ¬fileLe (g a) (g b) := by
        unfold fileLe at *
        rw [hg a, hg b]
        exact h
      simp [List.orderedInsert, h, h', orderedInsert_map_keyEq g hg a bl]

theorem insertionSort_map_keyEq (g : OverrideFile → OverrideFile)
    (hg : ∀ y, filePath (g y) = filePath y) :
    ∀ l : List OverrideFile,
      List.insertionSort fileLe (l.map g) = (List.insertionSort fileLe l).map g
  | [] => rfl
  | b :: bl => by
    show List.orderedInsert fileLe (g b) (List.insertionSort fileLe (bl.map g)) = _
    rw [insertionSort_map_keyEq g hg bl, orderedInsert_map_keyEq g hg b]
    rfl

theorem foldFiles_congr_map (tracks : Tracks) (am : Bool)
    (g : OverrideFile → OverrideFile)
    (heff : ∀ y acc, applyFile tracks am acc (g y) = applyFile tracks am acc y) :
    ∀ (l : List OverrideFile) (acc : Finset ℕ),
      foldFiles tracks am (l.map g) acc = foldFiles tracks am l acc
  | [], _ => rfl
  | y :: yl, acc => by
    show foldFiles tracks am (g y :: yl.map g) acc = _
    rw [foldFiles, foldFiles, heff y acc]
    cases applyFile tracks am acc y with
    | ok a => exact foldFiles_congr_map tracks am g heff yl a
    | error e => rfl

theorem resolveLabel_replace (tracks : Tracks) (am : Bool)
    (fs : List OverrideFile) (n : String) (f f' : OverrideFile)
    (hd : f'.dir = f.dir) (hl : f'.label = f.label) (ht : f'.ftype = f.ftype)
    (heff : ∀ acc, applyFile tracks am acc f' = applyFile tracks am acc f) :
    resolveLabel tracks am (fs.map fun y => if y = f then f' else y) n =
      resolveLabel tracks am fs n := by
  have hgpath : ∀ y : OverrideFile, filePath (if y = f then f' else y) = filePath y := by
    intro y
    by_cases hy : y = f
    · rw [if_pos hy, hy]
      unfold filePath fileName
      rw [hd, hl, ht]
    · rw [if_neg hy]
  have hgeff : ∀ (y : OverrideFile) (acc : Finset ℕ),
      applyFile tracks am acc (if y = f then f' else y) = applyFile tracks am acc y := by
    intro y acc
    by_cases hy : y = f
    · rw [if_pos hy, hy]
      exact heff acc
    · rw [if_neg hy]
  have hmatch : matchingFiles (fs.map fun y => if y = f then f' else y) n =
      (matchingFiles fs n).map fun y => if y = f then f' else y := by
    unfold matchingFiles
    rw [List.filter_map]
    congr 1
    apply List.filter_congr
    intro a _
    show ((if a = f then f' else a).label == n) = (a.label == n)
    by_cases hy : a = f
    · rw [if_pos hy, hy, hl]
    · rw [if_neg hy]
  have hemp : ∀ l : List OverrideFile,
      (l.map fun y => if y = f then f' else y).isEmpty = l.isEmpty := by
    intro l
    cases l <;> rfl
  unfold resolveLabel sortFiles
  simp only [hmatch, insertionSort_map_keyEq _ hgpath, hemp,
    foldFiles_congr_map tracks am _ hgeff]

/-- C8 counterexample: the `rock/slow` NONE_EXCEPT file's on-disk text is
`slow1.mp3` without a trailing newline (its lines are exactly the prior
scenario's).  `add_line_to_file` then appends `slow2.mp3\n` as raw text,
merging it into the existing last line (`slow1.mp3slow2.mp3`);
`remove_line_from_file`'s assert fails, the merged line stays, and resolving
`L` now differs from the prior resolved set (the lookup of the merged entry
raises where it used to return `{0, 1, 2}`). -/
theorem C8_counterexample :
    readlines ("slow1.mp3".data) =
      (OverrideFile.mk ["rock", "slow"] "L" .noneExcept ["slow1.mp3"]).lines ∧
    resolveLabel tracksC1 false
      (fsC1.map fun y =>
        if y = OverrideFile.mk ["rock", "slow"] "L" .noneExcept ["slow1.mp3"] then
          OverrideFile.mk ["rock", "slow"] "L" .noneExcept
            (readlines (roundTripText "slow1.mp3".data "slow2.mp3"))
        else y) "L" ≠
    resolveLabel tracksC1 false fsC1 "L" := by decide

/-- C8 (amended): for an override file whose on-disk text is empty or ends
with a trailing newline, appending an entry name containing no newline with
`add_line_to_file` and then removing it with `remove_line_from_file` (no
other change) leaves a file state whose label resolution — for every label
name — equals the prior resolution exactly.  (When the name already occurred,
the remove's assert fails and the appended duplicate line stays on disk, but
a duplicate exception line never changes the resolved set.)  Without the
trailing-newline proviso the appended name merges into the last line and the
resolution can change. -/
theorem C8_amended_round_trip (tracks : Tracks) (am : Bool)
    (fs : List OverrideFile) (f : OverrideFile) (text : List Char) (x : String)
    (n : String) (hx : '\n' ∉ x.data)
    (htext : text = [] ∨ text.getLast? = some '\n')
    (hlines : f.lines = readlines text) :
    resolveLabel tracks am
      (fs.map fun y => if y = f then
        OverrideFile.mk f.dir f.label f.ftype (readlines (roundTripText text x))
      else y) n =
    resolveLabel tracks am fs n := by
  have hlines1 : readlines (addText text x) =
      readlines text ++ [String.mk (x.data ++ ['\n'])] :=
    readlines_addText hx htext
  have hrx : rstrip (String.mk (x.data ++ ['\n'])) = rstrip x := rstrip_append_nl x.data
  by_cases hdup : ∃ l ∈ f.lines, rstrip l = rstrip x
  · have hkept : ((readlines (addText text x)).filter
        fun l => !(rstrip l == rstrip x)).length + 1 ≠
        (readlines (addText text x)).length := by
      obtain ⟨l, hl, hlx⟩ := hdup
      rw [hlines] at hl
      have hPl : (fun l => !(rstrip l == rstrip x)) l = false := by simp [hlx]
      have hlt := length_filter_lt (p := fun l => !(rstrip l == rstrip x)) hl hPl
      have h2 : [String.mk (x.data ++ ['\n'])].filter
          (fun l => !(rstrip l == rstrip x)) = [] := by simp [hrx]
      rw [hlines1, List.filter_append, h2, List.append_nil, List.length_append]
      simp only [List.length_cons, List.length_nil]
      omega
    have hrem : removeLineText (addText text x) x = none := by
      unfold removeLineText
      simp only [hkept, if_neg, if_false]
    have hrl : readlines (roundTripText text x) =
        f.lines ++ [String.mk (x.data ++ ['\n'])] := by
      unfold roundTripText
      rw [hrem, hlines1, hlines]
    rw [hrl]
    refine resolveLabel_replace tracks am fs n f
      (OverrideFile.mk f.dir f.label f.ftype
        (f.lines ++ [String.mk (x.data ++ ['\n'])])) rfl rfl rfl ?_
    intro acc
    refine applyFile_dup tracks am f (String.mk (x.data ++ ['\n'])) ?_ acc
    obtain ⟨l, hl, hlx⟩ := hdup
    exact ⟨l, hl, by rw [hrx]; exact hlx⟩
  · push_neg at hdup
    have hfilter : (readlines (addText text x)).filter
        (fun l => !(rstrip l == rstrip x)) = readlines text := by
      rw [hlines1, List.filter_append]
      have h1 : (readlines text).filter (fun l => !(rstrip l == rstrip x)) =
          readlines text :=
        List.filter_eq_self.mpr fun a ha => by simp [hdup a (hlines ▸ ha)]
      have h2 : [String.mk (x.data ++ ['\n'])].filter
          (fun l => !(rstrip l == rstrip x)) = [] := by simp [hrx]
      rw [h1, h2, List.append_nil]
    have hfilter' : (readlines text ++ [String.mk (x.data ++ ['\n'])]).filter
        (fun l => !(rstrip l == rstrip x)) = readlines text := by
      rw [← hlines1]
      exact hfilter
    have hrem : removeLineText (addText text x) x = some text := by
      unfold removeLineText
      simp only [hlines1, hfilter', List.length_append, List.length_cons,
        List.length_nil, Nat.zero_add, Nat.add_zero, if_pos, flatten_readlines]
    have hrl : readlines (roundTripText text x) = f.lines := by
      unfold roundTripText
      rw [hrem, hlines]
    rw [hrl]
    have hmap : (fs.map fun y =>
        if y = f then OverrideFile.mk f.dir f.label f.ftype f.lines else y) = fs := by
      have hid : ∀ y ∈ fs,
          (if y = f then OverrideFile.mk f.dir f.label f.ftype f.lines else y) = y := by
        intro y _
        by_cases hy : y = f
        · rw [if_pos hy, hy]
        · rw [if_neg hy]
      rw [List.map_congr_left hid]
      exact List.map_id fs
    rw [hmap]

/-- Witness for C8 (amended): the `rock/slow` NONE_EXCEPT file's on-disk text
is `slow1.mp3` followed by a trailing newline; adding `slow2.mp3` and
removing it again leaves the resolution of `L` unchanged. -/
theorem C8_amended_round_trip_witness :
    resolveLabel tracksC1 false
      ([OverrideFile.mk ["rock"] "L" .allExcept [],
        OverrideFile.mk ["rock", "slow"] "L" .noneExcept ["slow1.mp3\n"]].map fun y =>
        if y = OverrideFile.mk ["rock", "slow"] "L" .noneExcept ["slow1.mp3\n"] then
          OverrideFile.mk ["rock", "slow"] "L" .noneExcept
            (readlines (roundTripText "slow1.mp3\n".data "slow2.mp3"))
        else y) "L" =
    resolveLabel tracksC1 false
      [OverrideFile.mk ["rock"] "L" .allExcept [],
        OverrideFile.mk ["rock", "slow"] "L" .noneExcept ["slow1.mp3\n"]] "L" :=
  C8_amended_round_trip tracksC1 false
    [OverrideFile.mk ["rock"] "L" .allExcept [],
      OverrideFile.mk ["rock", "slow"] "L" .noneExcept ["slow1.mp3\n"]]
    (OverrideFile.mk ["rock", "slow"] "L" .noneExcept ["slow1.mp3\n"])
    ("slow1.mp3\n".data) "slow2.mp3" "L" (by decide) (Or.inr (by decide)) (by decide)

end Mpdspg
